import Mathlib

/-!
Verification of the llmind repository core algorithms: the diagnosis
traversal engine, the decision-tree flattener, the hierarchy crawler,
the text segmenter and the knowledge fuser.  Each Python function of the
repository is embedded as an executable Lean definition, and the claimed
properties are proved or refuted against those definitions.
-/

namespace LLMind

/-! ## Data model: decision nodes

One flattened element of a decision tree, as produced by
parse_json_leaves and as read back from the DiagnosisData table by
get_differential_diagnoses (fields level, type, value, parent_condition).
-/

structure Diagnosis where
  level : Nat
  type : String
  value : String
  parentCondition : Option String
deriving DecidableEq

/-! ## Traversal engine: get_next_question (api.py 90-119, 3. DBdsmsplit.py 175-204)

The Python loop scans the diagnoses list; a `condition`-typed eligible
node returns early, other eligible nodes at the next level accumulate in
possible_questions; a second loop then returns the first `condition`
entry of possible_questions, and otherwise the function reports no
question and keeps the current level.  gnqFirstPass returns the early
return value, when one occurs, together with the accumulated list.
-/

/-- The eligibility test of the first loop: previous_answer is None or
the node type equals it. -/
def answerOk (previousAnswer : Option String) (d : Diagnosis) : Bool :=
  match previousAnswer with
  | none => true
  | some a => d.type == a

def gnqFirstPass (previousAnswer : Option String) (nextLevel : Nat) :
    List Diagnosis → Option (String × Nat) × List Diagnosis
  | [] => (none, [])
  | d :: ds =>
    if d.level = nextLevel then
      if answerOk previousAnswer d then
        if d.type = "condition" then
          (some (d.value, nextLevel), [])
        else if d.level = nextLevel then
          ((gnqFirstPass previousAnswer nextLevel ds).1,
           d :: (gnqFirstPass previousAnswer nextLevel ds).2)
        else
          gnqFirstPass previousAnswer nextLevel ds
      else
        gnqFirstPass previousAnswer nextLevel ds
    else
      gnqFirstPass previousAnswer nextLevel ds

def getNextQuestion (diagnoses : List Diagnosis) (currentLevel : Nat)
    (previousAnswer : Option String) : Option String × Nat :=
  let nextLevel := currentLevel + 1
  match gnqFirstPass previousAnswer nextLevel diagnoses with
  | (some qa, _) => (some qa.1, qa.2)
  | (none, possibleQuestions) =>
    match possibleQuestions.find? (fun q => q.type == "condition") with
    | some q => (some q.value, nextLevel)
    | none => (none, currentLevel)

/-- The nodes the claim calls eligible for a supplied answer: the nodes
at the next level whose kind equals the previous answer. -/
def eligibleNodes (diagnoses : List Diagnosis) (currentLevel : Nat)
    (previousAnswer : String) : List Diagnosis :=
  diagnoses.filter (fun d => d.level == currentLevel + 1 && d.type == previousAnswer)

/-- Replay of a previous-answer history, as done by the askLLM endpoint
(api.py 190-193, 3. DBdsmsplit.py 310-313): one transition per answer,
stopping at the first transition that yields no question. -/
def replayAnswers (diagnoses : List Diagnosis) : Nat → List String → Nat
  | level, [] => level
  | level, a :: rest =>
    match getNextQuestion diagnoses level (some a) with
    | (none, level2) => level2
    | (some _, level2) => replayAnswers diagnoses level2 rest

/-! ## get_differential_diagnoses (api.py 35-87, 3. DBdsmsplit.py 36-87)

The query and row fetch are external; the function body maps fetched
rows into plain dictionaries and catches every exception, returning an
empty list on failure.  The fetch outcome is passed in as an Except
value: error means any pyodbc or unexpected exception was raised.
-/

structure QueryRow where
  level : Nat
  type : String
  value : String
  parentCondition : Option String
deriving DecidableEq

def getDifferentialDiagnoses (fetched : Except String (List QueryRow)) :
    List Diagnosis :=
  match fetched with
  | .error _ => []
  | .ok rows => rows.map (fun r =>
      { level := r.level, type := r.type, value := r.value,
        parentCondition := r.parentCondition })

/-! ## get_similar_case (3. DBdsmsplit.py 89-128)

The loop keeps the best match and best similarity seen so far, replacing
them when the current similarity strictly exceeds the best one and meets
or exceeds the confidence threshold.  The SequenceMatcher similarity is
an external library computation and enters the embedding as a function
argument producing a rational score.
-/

structure RefCase where
  caseNumber : String
  introduction : String
  diagnosis : String
deriving DecidableEq

def gscLoop (ratioFn : String → String → ℚ) (desc : String) (t : ℚ) :
    List RefCase → Option (RefCase × ℚ) → ℚ → Option (RefCase × ℚ)
  | [], best, _ => best
  | c :: cs, best, bestSim =>
    if bestSim < ratioFn desc c.introduction ∧ t ≤ ratioFn desc c.introduction then
      gscLoop ratioFn desc t cs (some (c, ratioFn desc c.introduction))
        (ratioFn desc c.introduction)
    else
      gscLoop ratioFn desc t cs best bestSim

def getSimilarCase (ratioFn : String → String → ℚ) (cases : List RefCase)
    (desc : String) (t : ℚ) : Option (RefCase × ℚ) :=
  gscLoop ratioFn desc t cases none 0

/-- A concrete similarity table and two reference cases for evaluating
the threshold boundary. -/
def ratioTable (_ : String) (intro2 : String) : ℚ :=
  if intro2 == "alpha" then 1 / 2 else 1 / 4

def refCaseA : RefCase := { caseNumber := "1", introduction := "alpha", diagnosis := "dxA" }

def refCaseB : RefCase := { caseNumber := "2", introduction := "beta", diagnosis := "dxB" }

/-! ## Decision graph builder: parse_json_leaves (5. DifferentialDiagnosisTreeReader.py 9-48)

A JSON-like document is a nesting of objects (dicts), arrays (lists)
and scalars.  The object and array spines are given as mutual
inductives so that all recursions are structural.  For an object field
whose value is nested the parser recurses with level+1 and the key as
the parent condition; a scalar field is emitted as one node at the
current level, whose type is sniffed from the key; an array recurses
into each element with level+1 keeping the parent condition.
-/

mutual
inductive Json where
  | scalar (s : String) : Json
  | obj (fields : JsonObj) : Json
  | arr (items : JsonArr) : Json
deriving DecidableEq

inductive JsonObj where
  | nil : JsonObj
  | cons (key : String) (value : Json) (rest : JsonObj) : JsonObj
deriving DecidableEq

inductive JsonArr where
  | nil : JsonArr
  | cons (item : Json) (rest : JsonArr) : JsonArr
deriving DecidableEq
end

/-- Needle occurs as a contiguous substring of the haystack, on char
lists (the semantics of the Python `in` operator on strings). -/
def charsLeadWith : List Char → List Char → Bool
  | [], _ => true
  | _ :: _, [] => false
  | a :: as, b :: bs => a == b && charsLeadWith as bs

def charsOccurIn : List Char → List Char → Bool
  | needle, [] => charsLeadWith needle []
  | needle, b :: t => charsLeadWith needle (b :: t) || charsOccurIn needle t

def occursIn (needle hay : String) : Bool :=
  charsOccurIn needle.data hay.data

/-- The Python str.lower of a key, as a char list (ASCII semantics). -/
def lowerChars (s : String) : List Char :=
  s.data.map Char.toLower

/-- Node-kind sniffing from the branch key (line 32-33 of the tree
reader): yes if the lowered key contains "yes", else no if it contains
"no", otherwise condition. -/
def keyType (key : String) : String :=
  if charsOccurIn "yes".data (lowerChars key) then "yes"
  else if charsOccurIn "no".data (lowerChars key) then "no"
  else "condition"

mutual
def parseJsonLeaves : Json → Nat → Option String → List Diagnosis
  | .scalar _, _, _ => []
  | .obj fields, level, parentCondition => parseObjFields fields level parentCondition
  | .arr items, level, parentCondition => parseArrItems items level parentCondition

def parseObjFields : JsonObj → Nat → Option String → List Diagnosis
  | .nil, _, _ => []
  | .cons key value rest, level, parentCondition =>
    (match value with
     | .scalar s =>
       [{ level := level, type := keyType key, value := s,
          parentCondition := parentCondition }]
     | v => parseJsonLeaves v (level + 1) (some key))
    ++ parseObjFields rest level parentCondition

def parseArrItems : JsonArr → Nat → Option String → List Diagnosis
  | .nil, _, _ => []
  | .cons item rest, level, parentCondition =>
    parseJsonLeaves item (level + 1) parentCondition
    ++ parseArrItems rest level parentCondition
end

/-- The two-question decision document of the flattening claim. -/
def c2Document : Json :=
  .obj (.cons "Q1"
    (.obj (.cons "yes" (.scalar "diagnosisA")
      (.cons "no"
        (.obj (.cons "Q2"
          (.obj (.cons "yes" (.scalar "diagnosisB") .nil)) .nil)) .nil)))
    .nil)

/-! ## Hierarchy crawler: retrieve_code (icddownloader.py 25-63)

A node of the remote hierarchy, as seen by the crawler, is one of:
a fetch failure (network error or malformed response, caught and
skipped), a fetched JSON object without a child field, or a fetched
JSON object with a child list.  Absent JSON fields are Option none,
matching the data.get defaults.  The hierarchy is finite and acyclic
(the stated external contract), so it is an inductive tree; the child
list is a mutual inductive forest so that all recursions are
structural.
-/

structure NodeData where
  classKind : String
  code : Option String
  title : Option String
  definition : Option String
  longdefinition : Option String
  inclusions : List (Option String)
  exclusions : List (Option String)
deriving DecidableEq

mutual
inductive ICDNode where
  | fetchFail : ICDNode
  | noChildNode (d : NodeData) : ICDNode
  | childNode (d : NodeData) (children : ICDForest) : ICDNode
deriving DecidableEq

inductive ICDForest where
  | nil : ICDForest
  | cons (hd : ICDNode) (tl : ICDForest) : ICDForest
deriving DecidableEq
end

/-- Field sanitization: every semicolon is replaced by a tilde
(the .replace of lines 48-53). -/
def sanitize (s : String) : String :=
  String.mk (s.data.map (fun c => if c = ';' then '~' else c))

/-- One flat leaf record, as appended to the results list. -/
structure Entry where
  code : String
  title : String
  definition : String
  longdefinition : String
  inclusions : List String
  exclusions : List String
deriving DecidableEq

def mkEntry (d : NodeData) : Entry :=
  { code := sanitize (d.code.getD ""),
    title := sanitize (d.title.getD ""),
    definition := sanitize (d.definition.getD ""),
    longdefinition := sanitize (d.longdefinition.getD ""),
    inclusions := d.inclusions.map (fun l => sanitize (l.getD "")),
    exclusions := d.exclusions.map (fun l => sanitize (l.getD "")) }

mutual
/-- retrieve_code with the caller-owned accumulator made explicit: a
fetch failure returns the accumulator unchanged; a childless category
node appends its entry; a node with children recurses into each child
in order and never appends an entry of its own. -/
def retrieveCode : ICDNode → List Entry → List Entry
  | .fetchFail, results => results
  | .noChildNode d, results =>
    if d.classKind = "category" then results ++ [mkEntry d] else results
  | .childNode _ children, results => retrieveForest children results

def retrieveForest : ICDForest → List Entry → List Entry
  | .nil, results => results
  | .cons c cs, results => retrieveForest cs (retrieveCode c results)
end

mutual
/-- Characterization from the specification: the category-kind nodes
carrying no child references, in depth-first document order. -/
def categoryLeaves : ICDNode → List NodeData
  | .fetchFail => []
  | .noChildNode d => if d.classKind = "category" then [d] else []
  | .childNode _ children => categoryLeavesF children

def categoryLeavesF : ICDForest → List NodeData
  | .nil => []
  | .cons c cs => categoryLeaves c ++ categoryLeavesF cs
end

mutual
/-- Nesting depth of a hierarchy node. -/
def nodeDepth : ICDNode → Nat
  | .fetchFail => 0
  | .noChildNode _ => 0
  | .childNode _ children => forestDepth children + 1

def forestDepth : ICDForest → Nat
  | .nil => 0
  | .cons c cs => max (nodeDepth c) (forestDepth cs)
end

mutual
/-- Fuel-instrumented crawl: each descent into a child list consumes
one unit of fuel, and exhausted fuel aborts with none.  Termination of
the recursive crawl is the statement that some finite fuel suffices. -/
def retrieveCodeFuel : Nat → ICDNode → List Entry → Option (List Entry)
  | 0, _, _ => none
  | _ + 1, .fetchFail, results => some results
  | _ + 1, .noChildNode d, results =>
    some (if d.classKind = "category" then results ++ [mkEntry d] else results)
  | n + 1, .childNode _ children, results => retrieveForestFuel n children results

def retrieveForestFuel : Nat → ICDForest → List Entry → Option (List Entry)
  | _, .nil, results => some results
  | n, .cons c cs, results =>
    match retrieveCodeFuel n c results with
    | none => none
    | some results2 => retrieveForestFuel n cs results2
end

/-- A fetched category node carrying no child field and no code field:
the crawler records it with an empty code. -/
def codelessLeaf : ICDNode :=
  .noChildNode
    { classKind := "category", code := none, title := some "Sleep-wake disorders",
      definition := none, longdefinition := none, inclusions := [], exclusions := [] }

/-- A fetched category leaf carrying a code field. -/
def codedLeafData : NodeData :=
  { classKind := "category", code := some "6A99", title := some "Anxiety",
    definition := some "worry", longdefinition := none,
    inclusions := [some "worry; fear"], exclusions := [] }

/-! ## Knowledge fuser, pandas variant (ICD_processing.py 62-94 and 199-206)

filtered_df rows carry codice/titolo/definizione/inclusioni/esclusioni,
with NaN (non-text) cells as Option none; result_df rows carry
codice/content; prompts_df is derived from filtered_df row-wise.  The
final frame is filtered_df inner-merged with result_df and then with
prompts_df, both on codice.
-/

structure CsvRow where
  codice : String
  titolo : String
  definizione : Option String
  inclusioni : Option String
  esclusioni : Option String
deriving DecidableEq

structure SegRow where
  codice : String
  content : String
deriving DecidableEq

/-- create_prompt of dataframe_to_prompts (ICD_processing.py 68-80): the
header is emitted only when the definition cell is a string, and the
inclusion and exclusion clauses only when those cells are strings. -/
def createPrompt (r : CsvRow) : String :=
  let p :=
    match r.definizione with
    | some d =>
      "Disorder Name: " ++ r.titolo ++ "\n" ++
      "Disorder Code: " ++ r.codice ++ "\n" ++
      "Disorder symptoms: " ++ d ++ "\n"
    | none => ""
  let p :=
    match r.inclusioni with
    | some i => p ++ "If you have " ++ i ++ " other inclusions could be: " ++ i ++ "\n"
    | none => p
  match r.esclusioni with
  | some e => p ++ "If you diagnose this disease exclude: " ++ e
  | none => p

structure PromptRow where
  codice : String
  nome : String
  prompt : String
deriving DecidableEq

def promptsOf (rows : List CsvRow) : List PromptRow :=
  rows.map (fun r => { codice := r.codice, nome := r.titolo, prompt := createPrompt r })

structure FinalRow where
  codice : String
  titolo : String
  definizione : Option String
  inclusioni : Option String
  esclusioni : Option String
  content : String
  nome : String
  prompt : String
deriving DecidableEq

/-- final_join_df (ICD_processing.py 199-203): inner merge of the
filtered CSV rows with the PDF segments on codice, then inner merge
with the prompts frame on codice. -/
def finalJoin (rows : List CsvRow) (segs : List SegRow) : List FinalRow :=
  ((rows.flatMap fun r =>
      (segs.filter fun s => s.codice == r.codice).map fun s => (r, s))).flatMap
    fun rs =>
      ((promptsOf rows).filter fun p => p.codice == rs.1.codice).map fun p =>
        { codice := rs.1.codice, titolo := rs.1.titolo,
          definizione := rs.1.definizione, inclusioni := rs.1.inclusioni,
          esclusioni := rs.1.esclusioni, content := rs.2.content,
          nome := p.nome, prompt := p.prompt }

/-! ## Knowledge fuser, database variant (2. DBICD_processing.py 292-321)

The join_query left-joins ICD11_Codes rows (restricted to codes LIKE
6 percent) with ICD11_PDF_Content rows on code, synthesizing the
prompt in SQL; string concatenation appends the two-character \n
sequence literally, and ISNULL turns absent cells into empty strings.
Step 5 then groups the joined frame by code and keeps, per code, the
row whose prompt length is maximal (idxmax: the first such row).
-/

structure CodeRec where
  code : String
  title : String
  definition : Option String
  inclusions : Option String
  exclusions : Option String
deriving DecidableEq

structure PdfRec where
  code : String
  content : String
  pageNumber : Nat
deriving DecidableEq

def isnullStr (x : Option String) : String := x.getD ""

/-- The LIKE 6 percent filter of the query: the code starts with 6. -/
def codeLeadsWith6 (s : String) : Bool :=
  charsLeadWith "6".data s.data

def mkSqlPrompt (c : CodeRec) (content : Option String) : String :=
  "Disorder Name: " ++ c.title ++ "\\n" ++
  "Disorder Code: " ++ c.code ++ "\\n" ++
  "Disorder symptoms: " ++ isnullStr c.definition ++ "\\n" ++
  "If you have " ++ isnullStr c.inclusions ++ " other inclusions could be: " ++
  isnullStr c.inclusions ++ "\\n" ++
  "If you diagnose this disease exclude: " ++ isnullStr c.exclusions ++ "\\n" ++
  isnullStr content

structure JoinedRow where
  code : String
  title : String
  definition : Option String
  inclusions : Option String
  exclusions : Option String
  content : Option String
  prompt : String
deriving DecidableEq

/-- join_query (2. DBICD_processing.py 292-314): every code row whose
code starts with 6 yields one joined row per matching PDF row, and one
row with null content when no PDF row matches (left join). -/
def joinQuery (codes : List CodeRec) (pdfs : List PdfRec) : List JoinedRow :=
  (codes.filter fun c => codeLeadsWith6 c.code).flatMap fun c =>
    if (pdfs.filter fun p => p.code == c.code).isEmpty then
      [{ code := c.code, title := c.title, definition := c.definition,
         inclusions := c.inclusions, exclusions := c.exclusions,
         content := none, prompt := mkSqlPrompt c none }]
    else
      (pdfs.filter fun p => p.code == c.code).map fun p =>
        { code := c.code, title := c.title, definition := c.definition,
          inclusions := c.inclusions, exclusions := c.exclusions,
          content := some p.content, prompt := mkSqlPrompt c (some p.content) }

/-- Distinct codes of the joined frame in first-occurrence order (the
group keys of the groupby). -/
def distinctCodes (rows : List JoinedRow) : List String :=
  rows.foldl (fun acc r => if r.code ∈ acc then acc else acc ++ [r.code]) []

/-- idxmax over a group: the first row whose prompt length attains the
maximum of the group. -/
def firstLongest (rows : List JoinedRow) : Option JoinedRow :=
  match rows with
  | [] => none
  | r :: rs =>
    some (rs.foldl (fun best x =>
      if best.prompt.length < x.prompt.length then x else best) r)

/-- Step 5 of the database fuser (2. DBICD_processing.py 317-321): per
code, only the first row of maximal prompt length survives. -/
def keepLongestPerCode (rows : List JoinedRow) : List JoinedRow :=
  (distinctCodes rows).filterMap fun c =>
    firstLongest (rows.filter fun r => r.code == c)

/-- Concrete fusion inputs: one hierarchy leaf and two text segments for
the same code, with bodies of length 10 and 50. -/
def fusionCode : CodeRec :=
  { code := "6A00", title := "Disorder", definition := some "Symptoms",
    inclusions := none, exclusions := none }

def body10 : String := "aaaaaaaaaa"

def body50 : String := "bbbbbbbbbbbbbbbbbbbbbbbbbbbbbbbbbbbbbbbbbbbbbbbbbb"

def fusionSeg10 : PdfRec := { code := "6A00", content := body10, pageNumber := 1 }

def fusionSeg50 : PdfRec := { code := "6A00", content := body50, pageNumber := 2 }

/-- The same duplicate-segment situation for the pandas fuser. -/
def pandasRow : CsvRow :=
  { codice := "6A00", titolo := "Disorder", definizione := some "Symptoms",
    inclusioni := none, esclusioni := none }

def pandasSeg10 : SegRow := { codice := "6A00", content := body10 }

def pandasSeg50 : SegRow := { codice := "6A00", content := body50 }

/-! ## Text segmenter (ICD_processing.py 147-192)

The anchor pattern is 6[A-E]w2(.w)? with w a word character.  Page text
is split on the pattern with the matched anchors retained (the capture
group of re.split); fragments are stripped, empty fragments dropped,
and fragments shorter than 3 characters discarded.  Rows containing an
anchor are the code indexes; each code takes as its body the join of
the rows strictly between it and the next code index, the last code
taking every remaining row.
-/

def isWordChar (c : Char) : Bool :=
  c.isAlphanum || c == '_'

/-- Leftmost-longest match of the anchor pattern at the head of the
char list: four chars 6, A-E, word, word, optionally followed by a dot
and a word character; returns the matched chars and the remainder. -/
def codeHere (l : List Char) : Option (List Char × List Char) :=
  match l with
  | a :: b :: c :: d :: rest =>
    if a = '6' ∧ 'A' ≤ b ∧ b ≤ 'E' ∧ isWordChar c ∧ isWordChar d then
      match rest with
      | p :: e :: rest2 =>
        if p = '.' ∧ isWordChar e then some ([a, b, c, d, p, e], rest2)
        else some ([a, b, c, d], rest)
      | _ => some ([a, b, c, d], rest)
    else none
  | _ => none

/-- re.split with the capture group retained: fragments and anchor
matches alternate, scanning left to right.  The fuel argument, fixed to
the length of the input, only makes the recursion structural; every
step consumes at least one character, so the fuel never runs out. -/
def splitCodeAux : Nat → List Char → List Char → List String
  | 0, cs, acc => [String.mk (acc.reverse ++ cs)]
  | _ + 1, [], acc => [String.mk acc.reverse]
  | fuel + 1, c :: rest, acc =>
    match codeHere (c :: rest) with
    | some (m, rest2) =>
      String.mk acc.reverse :: String.mk m :: splitCodeAux fuel rest2 []
    | none => splitCodeAux fuel rest (c :: acc)

def splitCode (s : String) : List String :=
  splitCodeAux s.data.length s.data []

/-- re.search of the anchor pattern: a match begins at some position. -/
def containsCode (s : String) : Bool :=
  go s.data
where
  go : List Char → Bool
    | [] => false
    | c :: rest => (codeHere (c :: rest)).isSome || go rest

/-- Python str.strip: leading and trailing whitespace removed. -/
def stripStr (s : String) : String :=
  String.mk (((s.data.dropWhile Char.isWhitespace).reverse.dropWhile
    Char.isWhitespace).reverse)

/-- The stripped, non-empty fragments of length at least 3, in order:
the content column of split_df after the two filters. -/
def tokenRows (s : String) : List String :=
  (((splitCode s).map stripStr).filter (fun p => p ≠ "")).filter
    (fun p => 3 ≤ p.length)

/-- code_indexes: the positions of the rows containing an anchor. -/
def codeIndexes (tokens : List String) : List Nat :=
  (List.range tokens.length).filter (fun i => containsCode (tokens.getD i ""))

/-- Python single-space join. -/
def joinSp : List String → String
  | [] => ""
  | h :: t => t.foldl (fun a s => a ++ " " ++ s) h

/-- The description-building loop (lines 177-186), with the inclusive
label slice loc written as drop and take: a non-final code at row p
with successor code at row q takes rows p+1 through q-1; the final code
takes every row after p. -/
def buildSegments (tokens : List String) : List Nat → List (String × String)
  | [] => []
  | [p] => [(tokens.getD p "", joinSp (tokens.drop (p + 1)))]
  | p :: q :: rest =>
    (tokens.getD p "", joinSp ((tokens.drop (p + 1)).take (q - (p + 1)))) ::
    buildSegments tokens (q :: rest)

/-- The specification wording: the body of a non-final anchor is the
join of the tokens strictly between its position and the next anchor
position. -/
def tokensBetween (tokens : List String) (p q : Nat) : List String :=
  ((List.range tokens.length).filter
    (fun j => decide (p < j) && decide (j < q))).map (fun j => tokens.getD j "")

/-- The specification wording: the body of the final anchor is the join
of every remaining token after its position. -/
def tokensAfter (tokens : List String) (p : Nat) : List String :=
  ((List.range tokens.length).filter
    (fun j => decide (p < j))).map (fun j => tokens.getD j "")

/-- The claimed body construction, stated from the specification text. -/
def segSpec (tokens : List String) : List Nat → List (String × String)
  | [] => []
  | [p] => [(tokens.getD p "", joinSp (tokensAfter tokens p))]
  | p :: q :: rest =>
    (tokens.getD p "", joinSp (tokensBetween tokens p q)) ::
    segSpec tokens (q :: rest)

/-- End-to-end segmentation of one page of raw text. -/
def segmentPage (s : String) : List (String × String) :=
  buildSegments (tokenRows s) (codeIndexes (tokenRows s))

/-! ## Theorems -/

/-! ### Traversal engine lemmas -/

theorem gnq_fst_level (pa : Option String) (n : Nat) :
    ∀ ds qa, (gnqFirstPass pa n ds).1 = some qa → qa.2 = n := by
  intro ds
  induction ds with
  | nil => intro qa h; simp [gnqFirstPass] at h
  | cons d ds ih =>
    intro qa h
    rw [gnqFirstPass] at h
    split at h
    · split at h
      · split at h
        · simp at h
          rw [← h]
        · simp only at h
          exact ih _ h
      · exact ih _ h
    · exact ih _ h

theorem gnq_supplied_pass (a : String) (ha : a ≠ "condition") (n : Nat) :
    ∀ ds, (gnqFirstPass (some a) n ds).1 = none ∧
      ∀ q ∈ (gnqFirstPass (some a) n ds).2, q.type = a := by
  intro ds
  induction ds with
  | nil => simp [gnqFirstPass]
  | cons d ds ih =>
    rw [gnqFirstPass]
    split
    · split
      · rename_i hlev htyp
        have htyp2 : d.type = a := by
          simpa [answerOk] using htyp
        split
        · rename_i hcond
          exact absurd (htyp2.symm.trans hcond) ha
        · refine ⟨by simpa using ih.1, ?_⟩
          intro q hq
          simp at hq
          rcases hq with hq | hq
          · rw [hq]; exact htyp2
          · exact ih.2 q hq
      · exact ih
    · exact ih

theorem eligible_mem_type (ds : List Diagnosis) (L : Nat) (a : String) :
    ∀ d ∈ eligibleNodes ds L a, d.type = a := by
  intro d hd
  have := List.mem_filter.mp hd
  simp at this
  exact this.2.2

theorem getNextQuestion_supplied_eq (ds : List Diagnosis) (L : Nat) (a : String)
    (ha : a ≠ "condition") : getNextQuestion ds L (some a) = (none, L) := by
  obtain ⟨h1, h2⟩ := gnq_supplied_pass a ha (L + 1) ds
  rw [getNextQuestion]
  rcases hr : gnqFirstPass (some a) (L + 1) ds with ⟨r1, r2⟩
  rw [hr] at h1 h2
  simp only at h1 h2
  subst h1
  have hf : r2.find? (fun q => q.type == "condition") = none := by
    rw [List.find?_eq_none]
    intro q hq
    simp [h2 q hq]
    exact ha
  simp [hf]

theorem getNextQuestion_level (ds : List Diagnosis) (L : Nat) (pa : Option String) :
    (getNextQuestion ds L pa).2 = L ∨ (getNextQuestion ds L pa).2 = L + 1 := by
  rw [getNextQuestion]
  rcases hr : gnqFirstPass pa (L + 1) ds with ⟨r1, r2⟩
  cases r1 with
  | some qa =>
    right
    have := gnq_fst_level pa (L + 1) ds qa (by rw [hr])
    simpa using this
  | none =>
    cases hf : r2.find? (fun q => q.type == "condition") with
    | some q => simp [hf]
    | none => simp [hf]

theorem replay_bounds (ds : List Diagnosis) :
    ∀ answers L, L ≤ replayAnswers ds L answers ∧
      replayAnswers ds L answers ≤ L + answers.length := by
  intro answers
  induction answers with
  | nil => intro L; simp [replayAnswers]
  | cons a rest ih =>
    intro L
    rw [replayAnswers]
    have hstep := getNextQuestion_level ds L (some a)
    rcases hq : getNextQuestion ds L (some a) with ⟨q, level2⟩
    rw [hq] at hstep
    simp only at hstep
    cases q with
    | none =>
      simp only
      simp [List.length_cons]
      omega
    | some s =>
      simp only
      have := ih level2
      simp [List.length_cons]
      omega

/-! ### Claim theorems: traversal engine -/

/-- C1: for every diagnoses list, level L and supplied previous answer
in yes or no, get_next_question considers only the nodes at level L+1
whose kind equals the answer (the result is unchanged when the list is
restricted to those nodes); an eligible condition-kind node would be
returned at once with the level advanced to L+1 (vacuously, since an
eligible node has the answer as its kind); and when no eligible
condition node exists the function returns no question and keeps the
level at L. -/
theorem traversal_transition_step (ds : List Diagnosis) (L : Nat) (a : String)
    (ha : a = "yes" ∨ a = "no") :
    getNextQuestion ds L (some a) = getNextQuestion (eligibleNodes ds L a) L (some a) ∧
    ((∃ d ∈ eligibleNodes ds L a, d.type = "condition") →
      ∃ d ∈ eligibleNodes ds L a, d.type = "condition" ∧
        getNextQuestion ds L (some a) = (some d.value, L + 1)) ∧
    ((∀ d ∈ eligibleNodes ds L a, d.type ≠ "condition") →
      getNextQuestion ds L (some a) = (none, L)) := by
  have hcond : a ≠ "condition" := by
    rcases ha with h | h <;> rw [h] <;> decide
  refine ⟨?_, ?_, ?_⟩
  · rw [getNextQuestion_supplied_eq ds L a hcond,
      getNextQuestion_supplied_eq (eligibleNodes ds L a) L a hcond]
  · intro hex
    obtain ⟨d, hd, hdt⟩ := hex
    exact absurd ((eligible_mem_type ds L a d hd).symm.trans hdt) hcond
  · intro _
    exact getNextQuestion_supplied_eq ds L a hcond

/-- C1 witness: the transition step at a concrete one-node graph with
the answer yes. -/
theorem traversal_transition_step_witness :
    ("yes" = "yes" ∨ "yes" = "no") ∧
    (getNextQuestion [⟨1, "yes", "q1", none⟩] 0 (some "yes") =
      getNextQuestion (eligibleNodes [⟨1, "yes", "q1", none⟩] 0 "yes") 0 (some "yes") ∧
    ((∃ d ∈ eligibleNodes [⟨1, "yes", "q1", none⟩] 0 "yes", d.type = "condition") →
      ∃ d ∈ eligibleNodes [⟨1, "yes", "q1", none⟩] 0 "yes", d.type = "condition" ∧
        getNextQuestion [⟨1, "yes", "q1", none⟩] 0 (some "yes") = (some d.value, 0 + 1)) ∧
    ((∀ d ∈ eligibleNodes [⟨1, "yes", "q1", none⟩] 0 "yes", d.type ≠ "condition") →
      getNextQuestion [⟨1, "yes", "q1", none⟩] 0 (some "yes") = (none, 0))) :=
  ⟨Or.inl rfl, traversal_transition_step [⟨1, "yes", "q1", none⟩] 0 "yes" (Or.inl rfl)⟩

/-- C10: the level returned by get_next_question is always the input
level or its successor, and replaying an answer history from level L
reaches a level between L and L plus the number of answers. -/
theorem level_monotonicity :
    (∀ (ds : List Diagnosis) (L : Nat) (pa : Option String),
      (getNextQuestion ds L pa).2 = L ∨ (getNextQuestion ds L pa).2 = L + 1) ∧
    (∀ (ds : List Diagnosis) (L : Nat) (answers : List String),
      L ≤ replayAnswers ds L answers ∧
        replayAnswers ds L answers ≤ L + answers.length) :=
  ⟨getNextQuestion_level, fun ds L answers => replay_bounds ds answers L⟩

/-- C8: a database or lookup error while fetching differential
diagnoses yields the empty list instead of an exception. -/
theorem lookup_failure_degrades :
    ∀ e : String, getDifferentialDiagnoses (.error e) = [] := by
  intro e
  rfl

/-! ### Claim theorems: decision graph builder -/

/-- C2: flattening the two-question document from level 0 yields
exactly the two claimed nodes, at levels 1 and 3, both of kind yes,
with parent labels Q1 and Q2; and the node kind of a scalar leaf is
inferred from the branch key by the case-insensitive substring test
(yes before no before condition). -/
theorem graph_flattening_levels :
    parseJsonLeaves c2Document 0 none =
      [{ level := 1, type := "yes", value := "diagnosisA", parentCondition := some "Q1" },
       { level := 3, type := "yes", value := "diagnosisB", parentCondition := some "Q2" }] ∧
    ∀ key : String,
      (charsOccurIn "yes".data (lowerChars key) = true → keyType key = "yes") ∧
      (charsOccurIn "yes".data (lowerChars key) = false →
        charsOccurIn "no".data (lowerChars key) = true → keyType key = "no") ∧
      (charsOccurIn "yes".data (lowerChars key) = false →
        charsOccurIn "no".data (lowerChars key) = false → keyType key = "condition") := by
  refine ⟨by decide, ?_⟩
  intro key
  refine ⟨?_, ?_, ?_⟩
  · intro h1
    simp [keyType, h1]
  · intro h1 h2
    simp [keyType, h1, h2]
  · intro h1 h2
    simp [keyType, h1, h2]

/-- C2 witness: the kind inference evaluated at three concrete keys,
one per branch of the substring test. -/
theorem graph_flattening_levels_witness :
    (charsOccurIn "yes".data (lowerChars "If YES") = true ∧ keyType "If YES" = "yes") ∧
    (charsOccurIn "yes".data (lowerChars "If NO") = false ∧
      charsOccurIn "no".data (lowerChars "If NO") = true ∧ keyType "If NO" = "no") ∧
    (charsOccurIn "yes".data (lowerChars "Q1") = false ∧
      charsOccurIn "no".data (lowerChars "Q1") = false ∧ keyType "Q1" = "condition") :=
  ⟨⟨by decide, (graph_flattening_levels.2 "If YES").1 (by decide)⟩,
   ⟨by decide, by decide, (graph_flattening_levels.2 "If NO").2.1 (by decide) (by decide)⟩,
   ⟨by decide, by decide, (graph_flattening_levels.2 "Q1").2.2 (by decide) (by decide)⟩⟩

/-! ### Similar-case lemmas -/

theorem gsc_sound (ratioFn : String → String → ℚ) (desc : String) (t : ℚ) :
    ∀ (cs : List RefCase) (best : Option (RefCase × ℚ)) (bestSim : ℚ),
      (∀ c s, best = some (c, s) → s = ratioFn desc c.introduction ∧ t ≤ s) →
      ∀ c s, gscLoop ratioFn desc t cs best bestSim = some (c, s) →
        s = ratioFn desc c.introduction ∧ t ≤ s := by
  intro cs
  induction cs with
  | nil => intro best bestSim hinv c s h; exact hinv c s h
  | cons c0 cs ih =>
    intro best bestSim hinv c s h
    rw [gscLoop] at h
    split at h
    · rename_i hcond
      refine ih _ _ ?_ c s h
      intro c1 s1 h1
      obtain ⟨h2, h3⟩ := Option.some.inj h1 |> Prod.mk.inj
      rw [← h2, ← h3]
      exact ⟨rfl, hcond.2⟩
    · exact ih _ _ hinv c s h

theorem gsc_freeze (ratioFn : String → String → ℚ) (desc : String) (t : ℚ) :
    ∀ (cs : List RefCase) (best : Option (RefCase × ℚ)) (bestSim : ℚ),
      (∀ c ∈ cs, ratioFn desc c.introduction ≤ bestSim) →
      gscLoop ratioFn desc t cs best bestSim = best := by
  intro cs
  induction cs with
  | nil => intro best bestSim _; rfl
  | cons c0 cs ih =>
    intro best bestSim hle
    rw [gscLoop]
    split
    · rename_i hcond
      exact absurd hcond.1 (not_lt.mpr (hle c0 (by simp)))
    · exact ih best bestSim (fun c hc => hle c (by simp [hc]))

theorem gsc_reaches (ratioFn : String → String → ℚ) (desc : String) (t : ℚ) :
    ∀ (cs : List RefCase) (best : Option (RefCase × ℚ)) (bestSim : ℚ),
      bestSim < t →
      (∀ c ∈ cs, ratioFn desc c.introduction ≤ t) →
      (∃ c ∈ cs, ratioFn desc c.introduction = t) →
      ∃ c, gscLoop ratioFn desc t cs best bestSim =
          some (c, ratioFn desc c.introduction) ∧
        ratioFn desc c.introduction = t := by
  intro cs
  induction cs with
  | nil => intro best bestSim _ _ hex; simp at hex
  | cons c0 cs ih =>
    intro best bestSim hlt hle hex
    rw [gscLoop]
    by_cases h0 : ratioFn desc c0.introduction = t
    · rw [if_pos (by rw [h0]; exact ⟨hlt, le_refl t⟩)]
      refine ⟨c0, ?_, h0⟩
      rw [gsc_freeze ratioFn desc t cs _ _ ?_]
      intro c hc
      rw [h0]
      exact hle c (by simp [hc])
    · have hs : ratioFn desc c0.introduction < t :=
        lt_of_le_of_ne (hle c0 (by simp)) h0
      rw [if_neg (by intro hcon; exact absurd hcon.2 (not_le.mpr hs))]
      refine ih best bestSim hlt (fun c hc => hle c (by simp [hc])) ?_
      obtain ⟨c, hc, hct⟩ := hex
      rcases List.mem_cons.mp hc with hc | hc
      · rw [hc] at hct; exact absurd hct h0
      · exact ⟨c, hc, hct⟩

/-! ### Claim theorems: similar-case threshold -/

/-- C7: a returned similar case always carries a similarity that is the
computed ratio of its introduction and meets or exceeds the threshold
(so a case with ratio strictly below the threshold is never returned),
and when some case has ratio exactly equal to a positive threshold and
no case exceeds it, a case of exactly that ratio is returned. -/
theorem similarity_threshold_boundary (ratioFn : String → String → ℚ)
    (cases : List RefCase) (desc : String) (t : ℚ) (ht : 0 < t) :
    (∀ c s, getSimilarCase ratioFn cases desc t = some (c, s) →
      s = ratioFn desc c.introduction ∧ t ≤ s) ∧
    ((∃ c ∈ cases, ratioFn desc c.introduction = t) →
     (∀ c ∈ cases, ratioFn desc c.introduction ≤ t) →
     ∃ c, getSimilarCase ratioFn cases desc t =
         some (c, ratioFn desc c.introduction) ∧
       ratioFn desc c.introduction = t) := by
  constructor
  · exact gsc_sound ratioFn desc t cases none 0 (fun c s h => by simp at h)
  · intro hex hle
    exact gsc_reaches ratioFn desc t cases none 0 ht hle hex

/-- C7 witness: the threshold boundary evaluated on a two-case corpus
with similarities one half and one quarter against threshold one half. -/
theorem similarity_threshold_boundary_witness :
    (0 : ℚ) < 1 / 2 ∧
    ((∀ c s, getSimilarCase ratioTable [refCaseA, refCaseB] "case" (1 / 2) = some (c, s) →
      s = ratioTable "case" c.introduction ∧ 1 / 2 ≤ s) ∧
    ((∃ c ∈ [refCaseA, refCaseB], ratioTable "case" c.introduction = 1 / 2) →
     (∀ c ∈ [refCaseA, refCaseB], ratioTable "case" c.introduction ≤ 1 / 2) →
     ∃ c, getSimilarCase ratioTable [refCaseA, refCaseB] "case" (1 / 2) =
         some (c, ratioTable "case" c.introduction) ∧
       ratioTable "case" c.introduction = 1 / 2)) :=
  ⟨by norm_num,
   similarity_threshold_boundary ratioTable [refCaseA, refCaseB] "case" (1 / 2) (by norm_num)⟩

/-! ### Crawler lemmas -/

mutual
theorem retrieveCode_collects : ∀ (t : ICDNode) (results : List Entry),
    retrieveCode t results = results ++ (categoryLeaves t).map mkEntry
  | .fetchFail, results => by simp [retrieveCode, categoryLeaves]
  | .noChildNode d, results => by
    rw [retrieveCode, categoryLeaves]
    split <;> simp
  | .childNode d cs, results => by
    rw [retrieveCode, categoryLeaves]
    exact retrieveForest_collects cs results

theorem retrieveForest_collects : ∀ (cs : ICDForest) (results : List Entry),
    retrieveForest cs results = results ++ (categoryLeavesF cs).map mkEntry
  | .nil, results => by simp [retrieveForest, categoryLeavesF]
  | .cons c cs, results => by
    rw [retrieveForest, categoryLeavesF, retrieveCode_collects c results,
      retrieveForest_collects cs]
    simp
end

mutual
theorem retrieveCodeFuel_adequate : ∀ (n : Nat) (t : ICDNode) (results : List Entry),
    nodeDepth t < n → retrieveCodeFuel n t results = some (retrieveCode t results)
  | 0, _, _, h => absurd h (Nat.not_lt_zero _)
  | n + 1, .fetchFail, results, _ => by
    rw [retrieveCodeFuel, retrieveCode]
  | n + 1, .noChildNode d, results, _ => by
    rw [retrieveCodeFuel, retrieveCode]
  | n + 1, .childNode d cs, results, h => by
    rw [retrieveCodeFuel, retrieveCode]
    refine retrieveForestFuel_adequate n cs results ?_
    rw [nodeDepth] at h
    omega

theorem retrieveForestFuel_adequate : ∀ (n : Nat) (cs : ICDForest) (results : List Entry),
    forestDepth cs < n → retrieveForestFuel n cs results = some (retrieveForest cs results)
  | n, .nil, results, _ => by
    rw [retrieveForestFuel, retrieveForest]
  | n, .cons c cs, results, h => by
    rw [retrieveForestFuel, retrieveForest]
    rw [forestDepth] at h
    rw [retrieveCodeFuel_adequate n c results (by omega)]
    exact retrieveForestFuel_adequate n cs (retrieveCode c results) (by omega)
end

theorem sanitize_ne_empty (s : String) (h : s ≠ "") : sanitize s ≠ "" := by
  intro hcon
  apply h
  have hdata := congrArg String.data hcon
  simp [sanitize] at hdata
  cases s with
  | mk l => simp at hdata; rw [hdata]

/-! ### Claim theorems: hierarchy crawler -/

/-- C3 counterexample: a fetched category node without a child field
and without a code field is recorded with an empty code, refuting the
clause that every emitted record carries a non-empty code. -/
theorem leaf_crawl_empty_code_cex :
    ∃ e ∈ retrieveCode codelessLeaf [], e.code = "" := by decide

/-- C3 amended: the crawl output is exactly one record per fetched
category node carrying no child reference, in depth-first order (so no
successfully parsed leaf is dropped and no child-bearing node is
recorded), and an emitted record has a non-empty code whenever its
node supplies a non-empty code field. -/
theorem leaf_crawl_invariant : ∀ t : ICDNode,
    retrieveCode t [] = (categoryLeaves t).map mkEntry ∧
    ∀ d ∈ categoryLeaves t, ∀ c, d.code = some c → c ≠ "" → (mkEntry d).code ≠ "" := by
  intro t
  constructor
  · simpa using retrieveCode_collects t []
  · intro d _ c hc hne
    have : (mkEntry d).code = sanitize c := by rw [mkEntry, hc]; rfl
    rw [this]
    exact sanitize_ne_empty c hne

/-- C3 witness: the amended invariant evaluated at a coded category
leaf. -/
theorem leaf_crawl_invariant_witness :
    (codedLeafData ∈ categoryLeaves (ICDNode.noChildNode codedLeafData)) ∧
    codedLeafData.code = some "6A99" ∧ "6A99" ≠ "" ∧ (mkEntry codedLeafData).code ≠ "" :=
  ⟨by decide, by decide, by decide,
   (leaf_crawl_invariant (ICDNode.noChildNode codedLeafData)).2 codedLeafData
     (by decide) "6A99" (by decide) (by decide)⟩

/-- C9: the recursive crawl terminates on every finite acyclic
hierarchy: fuel exceeding the nesting depth is enough for the
fuel-instrumented crawl to complete, agreeing with the total crawl, and
fetch failures only prune the affected node. -/
theorem crawl_terminates : ∀ (t : ICDNode) (results : List Entry),
    retrieveCodeFuel (nodeDepth t + 1) t results = some (retrieveCode t results) :=
  fun t results => retrieveCodeFuel_adequate (nodeDepth t + 1) t results (by omega)

/-! ### Claim theorems: fusion join domain -/

/-- C6 counterexample: the database-variant join produces a fused row
for a code present among the classification entities even when the
text-segment table is empty, refuting the inner-join iff for that
variant (its join is a left join). -/
theorem inner_join_domain_cex :
    (joinQuery [fusionCode] ([] : List PdfRec)).map (fun r => r.code) = ["6A00"] ∧
    ∀ s : PdfRec, s ∈ ([] : List PdfRec) → s.code ≠ "6A00" :=
  ⟨by decide, fun s hs => absurd hs (List.not_mem_nil s)⟩

/-- C6 amended: in the pandas fusion a record exists for a code exactly
when the code occurs both among the filtered CSV rows and among the
text segments (inner join); in the database-variant fusion a record
exists for a code exactly when the code occurs among the entity rows
and starts with 6, regardless of the text segments (left join). -/
theorem inner_join_domain :
    (∀ (rows : List CsvRow) (segs : List SegRow) (c : String),
      (∃ r ∈ finalJoin rows segs, r.codice = c) ↔
        (∃ x ∈ rows, x.codice = c) ∧ (∃ s ∈ segs, s.codice = c)) ∧
    (∀ (codes : List CodeRec) (pdfs : List PdfRec) (c : String),
      (∃ r ∈ joinQuery codes pdfs, r.code = c) ↔
        (∃ e ∈ codes, e.code = c ∧ codeLeadsWith6 e.code = true)) := by
  constructor
  · intro rows segs c
    constructor
    · rintro ⟨r, hr, hrc⟩
      rw [finalJoin] at hr
      rcases List.mem_flatMap.mp hr with ⟨rs, hrs, hrmem⟩
      rcases List.mem_map.mp hrmem with ⟨p, _, hpr⟩
      rcases List.mem_flatMap.mp hrs with ⟨row, hrow, hrs2⟩
      rcases List.mem_map.mp hrs2 with ⟨s, hsmem, hrspair⟩
      have hs := List.mem_filter.mp hsmem
      have hscod : s.codice = row.codice := by simpa using hs.2
      have hrcod : r.codice = rs.1.codice := by rw [← hpr]
      have hrs1 : rs.1 = row := by rw [← hrspair]
      refine ⟨⟨row, hrow, ?_⟩, ⟨s, hs.1, ?_⟩⟩
      · rw [← hrc, hrcod, hrs1]
      · rw [← hrc, hrcod, hrs1, hscod]
    · rintro ⟨⟨row, hrow, hrowc⟩, ⟨s, hs, hsc⟩⟩
      rw [finalJoin]
      refine ⟨{ codice := row.codice, titolo := row.titolo,
                definizione := row.definizione, inclusioni := row.inclusioni,
                esclusioni := row.esclusioni, content := s.content,
                nome := row.titolo, prompt := createPrompt row }, ?_, hrowc⟩
      exact List.mem_flatMap.mpr ⟨(row, s),
        List.mem_flatMap.mpr ⟨row, hrow,
          List.mem_map.mpr ⟨s, List.mem_filter.mpr ⟨hs, by simp [hsc, hrowc]⟩, rfl⟩⟩,
        List.mem_map.mpr
          ⟨{ codice := row.codice, nome := row.titolo, prompt := createPrompt row },
           List.mem_filter.mpr ⟨List.mem_map.mpr ⟨row, hrow, rfl⟩, by simp⟩, rfl⟩⟩
  · intro codes pdfs c
    constructor
    · rintro ⟨r, hr, hrc⟩
      rw [joinQuery] at hr
      rcases List.mem_flatMap.mp hr with ⟨e, he, hre⟩
      have he2 := List.mem_filter.mp he
      refine ⟨e, he2.1, ?_, he2.2⟩
      split at hre
      · rcases List.mem_singleton.mp hre with rfl
        rw [← hrc]
      · rcases List.mem_map.mp hre with ⟨p, _, hpr⟩
        rw [← hrc, ← hpr]
    · rintro ⟨e, he, hec, h6⟩
      rw [joinQuery]
      have hef : e ∈ codes.filter (fun x => codeLeadsWith6 x.code) :=
        List.mem_filter.mpr ⟨he, h6⟩
      by_cases hms : (pdfs.filter (fun p => p.code == e.code)).isEmpty
      · refine ⟨{ code := e.code, title := e.title, definition := e.definition,
                  inclusions := e.inclusions, exclusions := e.exclusions,
                  content := none, prompt := mkSqlPrompt e none },
            List.mem_flatMap.mpr ⟨e, hef, ?_⟩, hec⟩
        rw [if_pos hms]
        exact List.mem_singleton.mpr rfl
      · rcases hp : pdfs.filter (fun p => p.code == e.code) with _ | ⟨p, ps⟩
        · rw [hp] at hms; simp at hms
        · refine ⟨{ code := e.code, title := e.title, definition := e.definition,
                    inclusions := e.inclusions, exclusions := e.exclusions,
                    content := some p.content, prompt := mkSqlPrompt e (some p.content) },
              List.mem_flatMap.mpr ⟨e, hef, ?_⟩, hec⟩
          rw [if_neg hms]
          exact List.mem_map.mpr ⟨p, by rw [hp]; exact List.mem_cons_self p ps, rfl⟩

/-! ### Tie-break lemmas -/

theorem foldl_best_mem (rs : List JoinedRow) : ∀ acc : JoinedRow,
    rs.foldl (fun best x => if best.prompt.length < x.prompt.length then x else best) acc
      = acc ∨
    rs.foldl (fun best x => if best.prompt.length < x.prompt.length then x else best) acc
      ∈ rs := by
  induction rs with
  | nil => intro acc; left; rfl
  | cons x rs ih =>
    intro acc
    rw [List.foldl_cons]
    rcases ih (if acc.prompt.length < x.prompt.length then x else acc) with h | h
    · rw [h]
      split
      · right; exact List.mem_cons_self x rs
      · left; rfl
    · right; exact List.mem_cons_of_mem x h

theorem foldl_best_ge (rs : List JoinedRow) : ∀ acc : JoinedRow,
    acc.prompt.length ≤
      (rs.foldl (fun best x => if best.prompt.length < x.prompt.length then x else best)
        acc).prompt.length ∧
    ∀ x ∈ rs, x.prompt.length ≤
      (rs.foldl (fun best x => if best.prompt.length < x.prompt.length then x else best)
        acc).prompt.length := by
  induction rs with
  | nil => intro acc; exact ⟨le_refl _, by simp⟩
  | cons x rs ih =>
    intro acc
    rw [List.foldl_cons]
    obtain ⟨h1, h2⟩ := ih (if acc.prompt.length < x.prompt.length then x else acc)
    have hax : acc.prompt.length ≤
        (if acc.prompt.length < x.prompt.length then x else acc).prompt.length ∧
        x.prompt.length ≤
        (if acc.prompt.length < x.prompt.length then x else acc).prompt.length := by
      split <;> omega
    refine ⟨le_trans hax.1 h1, ?_⟩
    intro y hy
    rcases List.mem_cons.mp hy with hy | hy
    · rw [hy]; exact le_trans hax.2 h1
    · exact h2 y hy

theorem firstLongest_spec (rows : List JoinedRow) (r : JoinedRow)
    (h : firstLongest rows = some r) :
    r ∈ rows ∧ ∀ x ∈ rows, x.prompt.length ≤ r.prompt.length := by
  cases rows with
  | nil => simp [firstLongest] at h
  | cons r0 rs =>
    rw [firstLongest] at h
    have hr := Option.some.inj h
    constructor
    · rcases foldl_best_mem rs r0 with hm | hm
      · rw [← hr, hm]; exact List.mem_cons_self r0 rs
      · rw [← hr]; exact List.mem_cons_of_mem r0 hm
    · intro x hx
      obtain ⟨h1, h2⟩ := foldl_best_ge rs r0
      rcases List.mem_cons.mp hx with hx | hx
      · rw [hx, ← hr]; exact h1
      · rw [← hr]; exact h2 x hx

theorem mem_distinctCodes_aux (rows : List JoinedRow) : ∀ (acc : List String) (x : String),
    x ∈ rows.foldl (fun acc r => if r.code ∈ acc then acc else acc ++ [r.code]) acc ↔
      x ∈ acc ∨ ∃ r ∈ rows, r.code = x := by
  induction rows with
  | nil => intro acc x; simp
  | cons r rows ih =>
    intro acc x
    rw [List.foldl_cons, ih]
    have hstep : x ∈ (if r.code ∈ acc then acc else acc ++ [r.code]) ↔
        x ∈ acc ∨ x = r.code := by
      split
      · rename_i hin
        constructor
        · exact Or.inl
        · rintro (h | h)
          · exact h
          · rw [h]; exact hin
      · simp [List.mem_append, eq_comm]
    rw [hstep]
    constructor
    · rintro ((h | h) | h)
      · exact Or.inl h
      · exact Or.inr ⟨r, List.mem_cons_self r rows, h.symm⟩
      · obtain ⟨r2, hr2, hr2x⟩ := h
        exact Or.inr ⟨r2, List.mem_cons_of_mem r hr2, hr2x⟩
    · rintro (h | h)
      · exact Or.inl (Or.inl h)
      · obtain ⟨r2, hr2, hr2x⟩ := h
        rcases List.mem_cons.mp hr2 with hr2 | hr2
        · exact Or.inl (Or.inr (by rw [← hr2x, hr2]))
        · exact Or.inr ⟨r2, hr2, hr2x⟩

theorem mem_distinctCodes (rows : List JoinedRow) (x : String) :
    x ∈ distinctCodes rows ↔ ∃ r ∈ rows, r.code = x := by
  rw [distinctCodes, mem_distinctCodes_aux rows [] x]
  simp

theorem nodup_distinctCodes_aux (rows : List JoinedRow) : ∀ acc : List String,
    acc.Nodup →
    (rows.foldl (fun acc r => if r.code ∈ acc then acc else acc ++ [r.code]) acc).Nodup := by
  induction rows with
  | nil => intro acc h; exact h
  | cons r rows ih =>
    intro acc h
    rw [List.foldl_cons]
    refine ih _ ?_
    split
    · exact h
    · rename_i hnin
      simp [List.nodup_append, h, hnin]

theorem nodup_distinctCodes (rows : List JoinedRow) : (distinctCodes rows).Nodup :=
  nodup_distinctCodes_aux rows [] List.nodup_nil

theorem filterMap_filter_absent (g : String → Option JoinedRow)
    (hg : ∀ c2 r, g c2 = some r → r.code = c2) (c : String) :
    ∀ cs : List String, c ∉ cs →
      (cs.filterMap g).filter (fun r => r.code == c) = [] := by
  intro cs
  induction cs with
  | nil => intro _; rfl
  | cons c2 cs ih =>
    intro hnin
    rw [List.filterMap_cons]
    cases hg2 : g c2 with
    | none => exact ih (fun h => hnin (List.mem_cons_of_mem c2 h))
    | some r =>
      rw [List.filter_cons]
      have : (r.code == c) = false := by
        rw [hg c2 r hg2]
        simp
        intro hcon
        exact hnin (by rw [← hcon]; exact List.mem_cons_self c2 cs)
      rw [this]
      simp only [Bool.false_eq_true, if_neg]
      exact ih (fun h => hnin (List.mem_cons_of_mem c2 h))

theorem filterMap_filter_key (g : String → Option JoinedRow)
    (hg : ∀ c2 r, g c2 = some r → r.code = c2) (c : String) :
    ∀ cs : List String, cs.Nodup → (c ∈ cs ∨ g c = none) →
      (cs.filterMap g).filter (fun r => r.code == c) = (g c).toList := by
  intro cs
  induction cs with
  | nil =>
    intro _ hor
    rcases hor with h | h
    · simp at h
    · rw [h]; rfl
  | cons c2 cs ih =>
    intro hnd hor
    obtain ⟨hc2nin, hndcs⟩ := List.nodup_cons.mp hnd
    rw [List.filterMap_cons]
    by_cases hcc2 : c = c2
    · cases hg2 : g c2 with
      | none =>
        rw [hcc2, hg2]
        simp only [Option.toList_none]
        exact filterMap_filter_absent g hg c2 cs hc2nin
      | some r =>
        rw [List.filter_cons]
        have hrc : r.code = c2 := hg c2 r hg2
        rw [show (r.code == c) = true by rw [hrc, hcc2]; simp, if_pos rfl]
        rw [hcc2, hg2]
        simp only [Option.toList_some]
        rw [filterMap_filter_absent g hg c2 cs hc2nin]
    · have hin : c ∈ cs ∨ g c = none := by
        rcases hor with h | h
        · rcases List.mem_cons.mp h with h | h
          · exact absurd h hcc2
          · exact Or.inl h
        · exact Or.inr h
      cases hg2 : g c2 with
      | none => exact ih hndcs hin
      | some r =>
        rw [List.filter_cons]
        have : (r.code == c) = false := by
          rw [hg c2 r hg2]
          simp
          exact fun h => hcc2 h.symm
        rw [this]
        simp only [Bool.false_eq_true, if_neg]
        exact ih hndcs hin

theorem keepLongest_filter (rows : List JoinedRow) (c : String) :
    (keepLongestPerCode rows).filter (fun r => r.code == c) =
      (firstLongest (rows.filter (fun r => r.code == c))).toList := by
  rw [keepLongestPerCode]
  refine filterMap_filter_key _ ?_ c (distinctCodes rows) (nodup_distinctCodes rows) ?_
  · intro c2 r h
    have := (firstLongest_spec _ r h).1
    have := List.mem_filter.mp this
    simpa using this.2
  · by_cases hex : ∃ r ∈ rows, r.code = c
    · exact Or.inl ((mem_distinctCodes rows c).mpr hex)
    · right
      have : rows.filter (fun r => r.code == c) = [] := by
        rw [List.filter_eq_nil_iff]
        intro r hr
        simp
        exact fun hcon => hex ⟨r, hr, hcon⟩
      rw [this]
      rfl

/-! ### Claim theorems: fusion tie-break -/

/-- C4 counterexample: the pandas fusion performs no per-code
deduplication: with two text segments for one code both joined rows
survive, refuting the clause that exactly one row survives per code. -/
theorem fusion_tie_break_cex :
    ((finalJoin [pandasRow] [pandasSeg10, pandasSeg50]).filter
      (fun r => r.codice == "6A00")).length = 2 := by decide

set_option maxRecDepth 10000 in
/-- C4 amended: in the database-variant fusion, for every code present
among the joined rows exactly one row survives the grouping step, it is
a joined row of that code, and its fused prompt length is maximal in
the group; in particular, with two text segments of body lengths 10 and
50 for one code, the surviving record derives from the length-50 body.
The pandas fusion keeps all joined rows. -/
theorem fusion_tie_break :
    (∀ (rows : List JoinedRow) (c : String), (∃ r ∈ rows, r.code = c) →
      ∃ r, (keepLongestPerCode rows).filter (fun rr => rr.code == c) = [r] ∧
        r ∈ rows ∧ r.code = c ∧
        ∀ r2 ∈ rows, r2.code = c → r2.prompt.length ≤ r.prompt.length) ∧
    (body10.length = 10 ∧ body50.length = 50 ∧
      (keepLongestPerCode (joinQuery [fusionCode] [fusionSeg10, fusionSeg50])).map
        (fun r => r.content) = [some body50]) := by
  constructor
  · intro rows c hex
    rcases hfl : firstLongest (rows.filter (fun r => r.code == c)) with _ | r
    · exfalso
      obtain ⟨r, hr, hrc⟩ := hex
      have hmem : r ∈ rows.filter (fun rr => rr.code == c) :=
        List.mem_filter.mpr ⟨hr, by simp [hrc]⟩
      rcases hnil : rows.filter (fun rr => rr.code == c) with _ | ⟨r0, rs⟩
      · rw [hnil] at hmem; exact List.not_mem_nil r hmem
      · rw [hnil, firstLongest] at hfl; simp at hfl
    · obtain ⟨hmem, hmax⟩ := firstLongest_spec _ r hfl
      have hmf := List.mem_filter.mp hmem
      refine ⟨r, ?_, hmf.1, by simpa using hmf.2, ?_⟩
      · rw [keepLongest_filter rows c, hfl]
        rfl
      · intro r2 hr2 hr2c
        exact hmax r2 (List.mem_filter.mpr ⟨hr2, by simp [hr2c]⟩)
  · refine ⟨by decide, by decide, ?_⟩
    decide

set_option maxRecDepth 10000 in
/-- C4 witness: the grouping step evaluated on the joined rows of the
two concrete segments. -/
theorem fusion_tie_break_witness :
    (∃ r ∈ joinQuery [fusionCode] [fusionSeg10, fusionSeg50], r.code = "6A00") ∧
    (∃ r, (keepLongestPerCode (joinQuery [fusionCode] [fusionSeg10, fusionSeg50])).filter
        (fun rr => rr.code == "6A00") = [r] ∧
      r ∈ joinQuery [fusionCode] [fusionSeg10, fusionSeg50] ∧ r.code = "6A00" ∧
      ∀ r2 ∈ joinQuery [fusionCode] [fusionSeg10, fusionSeg50], r2.code = "6A00" →
        r2.prompt.length ≤ r.prompt.length) :=
  ⟨by decide,
   fusion_tie_break.1 (joinQuery [fusionCode] [fusionSeg10, fusionSeg50]) "6A00" (by decide)⟩

/-! ### Segmentation lemmas -/

theorem range_filter_map_eq : ∀ (tokens : List String) (a b : Nat),
    ((List.range tokens.length).filter (fun j => decide (a ≤ j) && decide (j < b))).map
      (fun j => tokens.getD j "") = (tokens.drop a).take (b - a) := by
  intro tokens
  induction tokens with
  | nil => intro a b; simp
  | cons t ts ih =>
    intro a b
    rcases b with _ | b2
    · have hnil : (List.range (t :: ts).length).filter
          (fun j => decide (a ≤ j) && decide (j < 0)) = [] := by
        rw [List.filter_eq_nil_iff]
        intro j _
        simp
      rw [hnil, Nat.zero_sub, List.take_zero]
      rfl
    · have hgetd : ((fun j => (t :: ts).getD j "") ∘ Nat.succ) = (fun j => ts.getD j "") := by
        funext j
        show (t :: ts).getD (j + 1) "" = ts.getD j ""
        exact List.getD_cons_succ
      rcases a with _ | a2
      · rw [List.length_cons, List.range_succ_eq_map, List.filter_cons]
        rw [if_pos (by simp)]
        rw [List.map_cons]
        have hcomp : ((List.range ts.length).map Nat.succ).filter
            (fun j => decide (0 ≤ j) && decide (j < b2 + 1)) =
            ((List.range ts.length).filter
              (fun j => decide (0 ≤ j) && decide (j < b2))).map Nat.succ := by
          rw [List.filter_map]
          congr 1
          apply List.filter_congr
          intro j _
          show (decide ((0 : Nat) ≤ j + 1) && decide (j + 1 < b2 + 1)) =
            (decide ((0 : Nat) ≤ j) && decide (j < b2))
          rw [← Bool.decide_and, ← Bool.decide_and, decide_eq_decide]
          omega
        rw [hcomp, List.map_map, hgetd, ih 0 b2]
        simp
      · rw [List.length_cons, List.range_succ_eq_map, List.filter_cons]
        rw [if_neg (by simp)]
        have hcomp : ((List.range ts.length).map Nat.succ).filter
            (fun j => decide (a2 + 1 ≤ j) && decide (j < b2 + 1)) =
            ((List.range ts.length).filter
              (fun j => decide (a2 ≤ j) && decide (j < b2))).map Nat.succ := by
          rw [List.filter_map]
          congr 1
          apply List.filter_congr
          intro j _
          show (decide (a2 + 1 ≤ j + 1) && decide (j + 1 < b2 + 1)) =
            (decide (a2 ≤ j) && decide (j < b2))
          rw [← Bool.decide_and, ← Bool.decide_and, decide_eq_decide]
          omega
        rw [hcomp, List.map_map, hgetd, ih a2 b2]
        rw [List.drop_succ_cons, Nat.succ_sub_succ]

theorem tokensBetween_eq (tokens : List String) (p q : Nat) :
    tokensBetween tokens p q = (tokens.drop (p + 1)).take (q - (p + 1)) := by
  rw [tokensBetween]
  have hpred : (List.range tokens.length).filter
      (fun j => decide (p < j) && decide (j < q)) =
      (List.range tokens.length).filter
        (fun j => decide (p + 1 ≤ j) && decide (j < q)) := by
    apply List.filter_congr
    intro j _
    rw [← Bool.decide_and, ← Bool.decide_and, decide_eq_decide]
    omega
  rw [hpred, range_filter_map_eq tokens (p + 1) q]

theorem tokensAfter_eq (tokens : List String) (p : Nat) :
    tokensAfter tokens p = tokens.drop (p + 1) := by
  rw [tokensAfter]
  have hpred : (List.range tokens.length).filter (fun j => decide (p < j)) =
      (List.range tokens.length).filter
        (fun j => decide (p + 1 ≤ j) && decide (j < tokens.length)) := by
    apply List.filter_congr
    intro j hj
    have hj2 : j < tokens.length := List.mem_range.mp hj
    show decide (p < j) = (decide (p + 1 ≤ j) && decide (j < tokens.length))
    rw [← Bool.decide_and, decide_eq_decide]
    omega
  rw [hpred, range_filter_map_eq tokens (p + 1) tokens.length]
  have hlen : tokens.length - (p + 1) = (tokens.drop (p + 1)).length :=
    (List.length_drop _ _).symm
  rw [hlen, List.take_length]

theorem buildSegments_eq_segSpec (tokens : List String) :
    ∀ idxs : List Nat, buildSegments tokens idxs = segSpec tokens idxs
  | [] => rfl
  | [p] => by rw [buildSegments, segSpec, tokensAfter_eq]
  | p :: q :: rest => by
    rw [buildSegments, segSpec, tokensBetween_eq,
      buildSegments_eq_segSpec tokens (q :: rest)]

/-! ### Claim theorems: text segmentation -/

/-- C5: over every flat token sequence and anchor index list, the body
built for a non-final anchor is the single-space join of the tokens
strictly between it and the next anchor, and the final anchor takes
every remaining token; and the concrete page of the claim segments into
exactly the two claimed code and body pairs. -/
theorem segmentation_bodies :
    (∀ (tokens : List String) (idxs : List Nat),
      buildSegments tokens idxs = segSpec tokens idxs) ∧
    segmentPage "6A00.0 foo bar 6A01 baz" = [("6A00.0", "foo bar"), ("6A01", "baz")] :=
  ⟨fun tokens idxs => buildSegments_eq_segSpec tokens idxs, by decide⟩

end LLMind
